import Mathlib

/-!
Verification of `neurodsp/laggedcoherence.py` (lagged coherence estimator).

The Python source is shallowly embedded below.  Control parameters
(frequencies, sampling rate, number of cycles, step) are modelled as exact
rationals; the signal and all spectral quantities are modelled over ℝ/ℂ.
Machine floats are treated as exact real arithmetic, which is the reading the
specification itself uses.
-/

namespace NeuroDSP

/-- `np.arange start stop step` for `step > 0`, in exact arithmetic: the values
`start + k*step` for `0 ≤ k < ⌈(stop - start)/step⌉` (empty when the ceiling is
not positive).  This is numpy's documented semantics for `arange`. -/
def arange (start stop step : ℚ) : List ℚ :=
  (List.range (⌈(stop - start) / step⌉.toNat)).map (fun k : ℕ => start + (k : ℚ) * step)

/-- Source `_nonoverlapping_chunks(x, N)`: `Nchunks = floor(len(x)/N)` and
`np.reshape(x[:Nchunks*N], (Nchunks, N))`, i.e. row `i` is the slice
`x[i*N : i*N + N]`. -/
def nonoverlapping_chunks {α : Type} (x : List α) (N : ℕ) : List (List α) :=
  (List.range (x.length / N)).map (fun i => (x.drop (i * N)).take N)

/-- Source: `n_samps = int(np.ceil(n_cycles * s_rate / f))`. -/
def nSamps (nCycles sRate f : ℚ) : ℤ := ⌈nCycles * sRate / f⌉

/-- `scipy.signal.hanning M` (symmetric Hann window):
`w n = 0.5 - 0.5*cos(2*pi*n/(M-1))` for `n = 0, …, M-1`, with the special case
`M = 1 ↦ [1]`. -/
noncomputable def hannWindow (M : ℕ) : List ℝ :=
  if M = 1 then [1]
  else (List.range M).map
    (fun n : ℕ => 0.5 - 0.5 * Real.cos (2 * Real.pi * (n : ℝ) / ((M : ℝ) - 1)))

/-- `np.fft.fftfreq N (1/sRate)` evaluated at bin `k`: the standard DFT
frequency grid `k*sRate/N` for `k ≤ (N-1)/2` and `(k-N)*sRate/N` for the
remaining (negative-frequency) bins. -/
def fftfreq (N : ℕ) (sRate : ℚ) (k : ℕ) : ℚ :=
  if k < (N + 1) / 2 then (k : ℚ) * sRate / N else ((k : ℚ) - N) * sRate / N

/-- `np.argmin`: the first index whose value is ≤ every value of the list
(0 on the empty list, which numpy instead rejects). -/
def argminIdx (l : List ℚ) : ℕ :=
  l.findIdx (fun v => l.all (fun w => v ≤ w))

/-- Source: `fourier_f_idx = np.argmin(np.abs(fourier_f - f))`, computed once
per frequency, outside the loop over chunks. -/
def fourierFIdx (N : ℕ) (sRate f : ℚ) : ℕ :=
  argminIdx ((List.range N).map (fun k => |fftfreq N sRate k - f|))

/-- `np.fft.fft c` at bin `k`: `X_k = Σ_n c_n · e^(-2πi·k·n/N)` with
`N = c.length`. -/
noncomputable def dftCoef (c : List ℝ) (k : ℕ) : ℂ :=
  ∑ n in Finset.range c.length,
    (c.getD n 0 : ℂ) * Complex.exp ((-(2 * Real.pi * k * n / c.length) : ℝ) * Complex.I)

/-- The per-chunk tapered Fourier coefficients of `_lagged_coherence_1freq`:
each chunk is multiplied elementwise by the Hann window, transformed, and the
coefficient at bin `fourier_f_idx` is kept. -/
noncomputable def fourierCoefs (x : List ℝ) (f sRate nCycles : ℚ) : List ℂ :=
  (nonoverlapping_chunks x (nSamps nCycles sRate f).toNat).map
    (fun c => dftCoef (List.zipWith (· * ·) c (hannWindow (nSamps nCycles sRate f).toNat))
      (fourierFIdx (nSamps nCycles sRate f).toNat sRate f))

/-- Source numerator loop: `lcs_num = 0; for i2 in range(C-1): lcs_num +=
coes[i2] * conj(coes[i2+1])`. -/
noncomputable def lcNum (a : List ℂ) : ℂ :=
  (List.range (a.length - 1)).foldl
    (fun s i2 => s + a.getD i2 0 * (starRingEnd ℂ) (a.getD (i2 + 1) 0)) 0

/-- Source: the radicand of `lcs_denom`, i.e.
`sum(abs(coes[:-1])**2) * sum(abs(coes[1:])**2)`. -/
noncomputable def lcDenomSq (a : List ℂ) : ℝ :=
  ((a.dropLast.map (fun z => Complex.abs z ^ 2)).sum) *
    (((a.drop 1).map (fun z => Complex.abs z ^ 2)).sum)

/-- Source `_lagged_coherence_1freq(x, f, s_rate, n_cycles, f_step)`:
`np.abs(lcs_num / lcs_denom)` (the `f_step` parameter is accepted and unused,
as in the source). -/
noncomputable def lagged_coherence_1freq (x : List ℝ) (f sRate nCycles _fStep : ℚ) : ℝ :=
  Complex.abs (lcNum (fourierCoefs x f sRate nCycles) /
    ((Real.sqrt (lcDenomSq (fourierCoefs x f sRate nCycles)) : ℝ) : ℂ))

/-- Return value of `lagged_coherence`: a scalar mean, or the spectrum paired
with its frequencies. -/
inductive LCOutput where
  | scalar (lc : ℝ)
  | spectrum (lc : List ℝ) (freqs : List ℚ)

/-- Source: `freqs = np.arange(f_range[0], f_range[1] + f_step, f_step)`. -/
def freqsLC (low high fStep : ℚ) : List ℚ := arange low (high + fStep) fStep

/-- Source `lagged_coherence(x, f_range, s_rate, n_cycles, f_step,
return_spectrum)`: sweep the single-frequency estimator over `freqs` and either
return the full spectrum or `np.mean` of the values. -/
noncomputable def lagged_coherence (x : List ℝ) (fRange : ℚ × ℚ)
    (sRate nCycles fStep : ℚ) (returnSpectrum : Bool) : LCOutput :=
  let freqs := arange fRange.1 (fRange.2 + fStep) fStep
  let lcs := freqs.map (fun f => lagged_coherence_1freq x f sRate nCycles fStep)
  if returnSpectrum then LCOutput.spectrum lcs freqs
  else LCOutput.scalar (lcs.sum / (lcs.length : ℝ))

/-- Projection on the scalar return mode. -/
def lcScalarOf : LCOutput → Option ℝ
  | LCOutput.scalar v => some v
  | LCOutput.spectrum _ _ => none

/-- Projection on the spectrum return mode. -/
def lcValuesOf : LCOutput → Option (List ℝ)
  | LCOutput.scalar _ => none
  | LCOutput.spectrum lcs _ => some lcs

/-- State-threaded single-frequency estimator: every array operation of the
source (`x[:n]` slicing, `np.reshape`, elementwise products, `np.fft.fft`)
reads the signal or allocates a fresh array, so the signal buffer is returned
unchanged alongside the value. -/
noncomputable def lagged_coherence_1freq_st (x : List ℝ) (f sRate nCycles fStep : ℚ) :
    ℝ × List ℝ :=
  (lagged_coherence_1freq x f sRate nCycles fStep, x)

/-- One iteration of the sweep loop, threading the signal buffer. -/
noncomputable def lcSweepStep (sRate nCycles fStep : ℚ) (acc : List ℝ × List ℝ) (f : ℚ) :
    List ℝ × List ℝ :=
  (acc.1 ++ [(lagged_coherence_1freq_st acc.2 f sRate nCycles fStep).1],
    (lagged_coherence_1freq_st acc.2 f sRate nCycles fStep).2)

/-- State-threaded `lagged_coherence`: returns the output together with the
signal buffer after the call. -/
noncomputable def lagged_coherence_st (x : List ℝ) (fRange : ℚ × ℚ)
    (sRate nCycles fStep : ℚ) (returnSpectrum : Bool) : LCOutput × List ℝ :=
  let freqs := arange fRange.1 (fRange.2 + fStep) fStep
  let r := freqs.foldl (lcSweepStep sRate nCycles fStep) ([], x)
  (if returnSpectrum then LCOutput.spectrum r.1 freqs
   else LCOutput.scalar (r.1.sum / (r.1.length : ℝ)), r.2)

/-- Specification wording (§4.2 step 5): the numerator is the sum over the
`C-1` adjacent pairs of each coefficient times the conjugate of the next. -/
noncomputable def specNumerator (a : List ℂ) : ℂ :=
  ∑ i in Finset.range (a.length - 1), a.getD i 0 * (starRingEnd ℂ) (a.getD (i + 1) 0)

/-- Specification wording (§4.2 step 6): the denominator is
`sqrt((Σ_{i=0}^{C-2} |a_i|²) · (Σ_{i=1}^{C-1} |a_i|²))`. -/
noncomputable def specDenominator (a : List ℂ) : ℝ :=
  Real.sqrt ((∑ i in Finset.range (a.length - 1), Complex.abs (a.getD i 0) ^ 2) *
    (∑ i in Finset.range (a.length - 1), Complex.abs (a.getD (i + 1) 0) ^ 2))

/-! ### Helper lemmas -/

lemma foldl_add_range {M : Type} [AddCommMonoid M] (f : ℕ → M) :
    ∀ (n : ℕ) (c : M),
      (List.range n).foldl (fun s i => s + f i) c = c + ∑ i in Finset.range n, f i := by
  intro n
  induction n with
  | zero => intro c; simp
  | succ m ih =>
    intro c
    rw [List.range_succ, List.foldl_append, ih c, Finset.sum_range_succ]
    simp [add_assoc]

lemma lcNum_eq_specNumerator (a : List ℂ) : lcNum a = specNumerator a := by
  rw [lcNum, specNumerator, foldl_add_range, zero_add]

lemma sum_map_getD {α M : Type} [AddCommMonoid M] (g : α → M) (d : α) :
    ∀ l : List α, (l.map g).sum = ∑ i in Finset.range l.length, g (l.getD i d) := by
  intro l
  induction l with
  | nil => simp
  | cons a tl ih =>
    rw [List.map_cons, List.sum_cons, ih, List.length_cons, Finset.sum_range_succ']
    simp [add_comm]

lemma getD_take {α : Type} (l : List α) (d : α) (n i : ℕ) (h : i < n) :
    (l.take n).getD i d = l.getD i d := by
  rw [List.getD_eq_getD_get?, List.getD_eq_getD_get?, List.get?_eq_getElem?,
    List.get?_eq_getElem?, List.getElem?_take]
  simp [h]

lemma getD_drop {α : Type} (l : List α) (d : α) (n i : ℕ) :
    (l.drop n).getD i d = l.getD (n + i) d := by
  rw [List.getD_eq_getD_get?, List.getD_eq_getD_get?, List.get?_eq_getElem?,
    List.get?_eq_getElem?, List.getElem?_drop]

lemma dropLast_map_sum {M : Type} [AddCommMonoid M] (g : ℂ → M) (l : List ℂ) :
    (l.dropLast.map g).sum = ∑ i in Finset.range (l.length - 1), g (l.getD i 0) := by
  rw [sum_map_getD g 0, List.dropLast_eq_take, List.length_take]
  rcases Nat.eq_zero_or_pos l.length with h | h
  · simp [h]
  · have hmin : min (l.length - 1) l.length = l.length - 1 := by omega
    rw [hmin]
    refine Finset.sum_congr rfl (fun i hi => ?_)
    rw [getD_take _ _ _ _ (Finset.mem_range.mp hi)]

lemma drop_one_map_sum {M : Type} [AddCommMonoid M] (g : ℂ → M) (l : List ℂ) :
    ((l.drop 1).map g).sum = ∑ i in Finset.range (l.length - 1), g (l.getD (i + 1) 0) := by
  rw [sum_map_getD g 0, List.length_drop]
  refine Finset.sum_congr rfl (fun i hi => ?_)
  rw [getD_drop, Nat.add_comm]

lemma exists_min_mem : ∀ (l : List ℚ), l ≠ [] → ∃ v ∈ l, ∀ w ∈ l, v ≤ w := by
  intro l
  induction l with
  | nil => intro h; exact absurd rfl h
  | cons a tl ih =>
    intro _
    by_cases htl : tl = []
    · subst htl
      exact ⟨a, List.mem_cons_self a [], by simp⟩
    · rcases ih htl with ⟨v, hv, hmin⟩
      rcases le_total a v with hav | hva
      · exact ⟨a, List.mem_cons_self a tl, by
          intro w hw
          rcases List.mem_cons.mp hw with rfl | hw
          · exact le_refl w
          · exact le_trans hav (hmin w hw)⟩
      · exact ⟨v, List.mem_cons_of_mem a hv, by
          intro w hw
          rcases List.mem_cons.mp hw with rfl | hw
          · exact hva
          · exact hmin w hw⟩

lemma argminIdx_lt_length (l : List ℚ) (h : l ≠ []) : argminIdx l < l.length := by
  rcases exists_min_mem l h with ⟨v, hv, hmin⟩
  refine List.findIdx_lt_length_of_exists ⟨v, hv, ?_⟩
  simp only [List.all_eq_true, decide_eq_true_eq]
  exact hmin

lemma argminIdx_min (l : List ℚ) (h : l ≠ []) (k : ℕ) (hk : k < l.length) :
    l.getD (argminIdx l) 0 ≤ l.getD k 0 := by
  have hlt : argminIdx l < l.length := argminIdx_lt_length l h
  have hp := @List.findIdx_getElem ℚ (fun v => l.all (fun w => v ≤ w)) l hlt
  simp only [List.all_eq_true, decide_eq_true_eq] at hp
  rw [List.getD_eq_getElem l 0 hlt, List.getD_eq_getElem l 0 hk]
  exact hp _ (List.getElem_mem hk)

lemma chunks_flatten {α : Type} (x : List α) (N : ℕ) :
    ∀ C : ℕ, ((List.range C).map (fun i => (x.drop (i * N)).take N)).flatten = x.take (C * N) := by
  intro C
  induction C with
  | zero => simp
  | succ m ih =>
    rw [List.range_succ, List.map_append, List.flatten_append, ih]
    simp only [List.map_cons, List.map_nil, List.flatten_cons, List.flatten_nil, List.append_nil]
    rw [← List.take_add, Nat.succ_mul]

lemma sweep_foldl (sRate nCycles fStep : ℚ) (x : List ℝ) :
    ∀ (fs : List ℚ) (acc : List ℝ),
      fs.foldl (lcSweepStep sRate nCycles fStep) (acc, x) =
        (acc ++ fs.map (fun f => lagged_coherence_1freq x f sRate nCycles fStep), x) := by
  intro fs
  induction fs with
  | nil => intro acc; simp
  | cons f rest ih =>
    intro acc
    rw [List.foldl_cons, lcSweepStep]
    simp only [lagged_coherence_1freq_st]
    rw [ih]
    simp

/-! ### Claim theorems -/

/-- Claim C6: for every signal of length `L` and positive chunk length `N`, the
windowing function returns exactly `C = ⌊L/N⌋` chunks, each of exactly `N`
samples in original temporal order, and the trailing `L - C*N` samples are
dropped silently. -/
theorem nonoverlapping_chunks_spec {α : Type} (x : List α) (N : ℕ) (h : 0 < N) :
    (nonoverlapping_chunks x N).length = x.length / N ∧
    (∀ c ∈ nonoverlapping_chunks x N, c.length = N) ∧
    (nonoverlapping_chunks x N).flatten = x.take (x.length / N * N) := by
  refine ⟨by simp [nonoverlapping_chunks], ?_, chunks_flatten x N _⟩
  intro c hc
  rw [nonoverlapping_chunks] at hc
  rcases List.mem_map.mp hc with ⟨i, hi, rfl⟩
  rw [List.mem_range] at hi
  have h1 : (i + 1) * N ≤ x.length / N * N := Nat.mul_le_mul_right N hi
  have h2 : x.length / N * N ≤ x.length := Nat.div_mul_le_self _ _
  have h3 : i * N + N ≤ x.length := by
    rw [Nat.succ_mul] at h1
    omega
  simp only [List.length_take, List.length_drop]
  omega

/-- Witness for C6: the spec's literal test cases — a 100-sample signal with
chunk length 30 gives 3 chunks of 30 samples (90 used, 10 dropped), and chunk
length 101 gives 0 chunks. -/
theorem nonoverlapping_chunks_spec_witness :
    (0 < 30 ∧
      ((nonoverlapping_chunks (List.range 100) 30).length = (List.range 100).length / 30 ∧
        (∀ c ∈ nonoverlapping_chunks (List.range 100) 30, c.length = 30) ∧
        (nonoverlapping_chunks (List.range 100) 30).flatten =
          (List.range 100).take ((List.range 100).length / 30 * 30))) ∧
    (nonoverlapping_chunks (List.range 100) 30).length = 3 ∧
    (nonoverlapping_chunks (List.range 100) 101).length = 0 := by
  refine ⟨⟨by norm_num, nonoverlapping_chunks_spec (List.range 100) 30 (by norm_num)⟩, ?_, ?_⟩
  · simp [nonoverlapping_chunks]
  · simp [nonoverlapping_chunks]

/-- Claim C7: the scalar-mode result of `lagged_coherence` equals the exact
arithmetic mean of the per-frequency values that spectrum mode returns for the
identical arguments. -/
theorem scalar_is_mean_of_spectrum (x : List ℝ) (fRange : ℚ × ℚ)
    (sRate nCycles fStep : ℚ) :
    lcScalarOf (lagged_coherence x fRange sRate nCycles fStep false) =
      (lcValuesOf (lagged_coherence x fRange sRate nCycles fStep true)).map
        (fun lcs => lcs.sum / (lcs.length : ℝ)) := by
  simp [lagged_coherence, lcScalarOf, lcValuesOf]

/-- Claim C9: `lagged_coherence` is deterministic — two invocations with
identical arguments produce identical outputs. -/
theorem lagged_coherence_deterministic (x₁ x₂ : List ℝ) (r₁ r₂ : ℚ × ℚ)
    (s₁ s₂ n₁ n₂ t₁ t₂ : ℚ) (b₁ b₂ : Bool)
    (hx : x₁ = x₂) (hr : r₁ = r₂) (hs : s₁ = s₂) (hn : n₁ = n₂) (ht : t₁ = t₂)
    (hb : b₁ = b₂) :
    lagged_coherence x₁ r₁ s₁ n₁ t₁ b₁ = lagged_coherence x₂ r₂ s₂ n₂ t₂ b₂ := by
  subst hx hr hs hn ht hb
  rfl

/-- Witness for C9 at a concrete invocation. -/
theorem lagged_coherence_deterministic_witness :
    lagged_coherence [1] (1, 1) 1 1 1 false = lagged_coherence [1] (1, 1) 1 1 1 false :=
  lagged_coherence_deterministic [1] [1] (1, 1) (1, 1) 1 1 1 1 1 1 false false
    rfl rfl rfl rfl rfl rfl

/-- Claim C10: `lagged_coherence` leaves its input signal unchanged, in both
scalar and spectrum modes; moreover the state-threaded run computes the same
output as the pure function. -/
theorem lagged_coherence_preserves_signal (x : List ℝ) (fRange : ℚ × ℚ)
    (sRate nCycles fStep : ℚ) (b : Bool) :
    (lagged_coherence_st x fRange sRate nCycles fStep b).2 = x ∧
    (lagged_coherence_st x fRange sRate nCycles fStep b).1 =
      lagged_coherence x fRange sRate nCycles fStep b := by
  simp only [lagged_coherence_st, lagged_coherence, sweep_foldl, List.nil_append]
  cases b <;> simp

/-- Claim C5 (amended): `lagged_coherence` performs no argument validation.
For every argument combination — including `low > high`, frequencies ≤ 0 or a
nonpositive sampling rate — the frequency sequence
`arange(low, high + f_step, f_step)` is built and the single-frequency
estimator is evaluated at every one of its elements; no rejection happens
before (or instead of) the computation. -/
theorem no_validation_sweep (x : List ℝ) (low high sRate nCycles fStep : ℚ) :
    lagged_coherence x (low, high) sRate nCycles fStep true =
      LCOutput.spectrum
        ((freqsLC low high fStep).map (fun f => lagged_coherence_1freq x f sRate nCycles fStep))
        (freqsLC low high fStep) ∧
    lagged_coherence x (low, high) sRate nCycles fStep false =
      LCOutput.scalar
        (((freqsLC low high fStep).map
            (fun f => lagged_coherence_1freq x f sRate nCycles fStep)).sum /
          (((freqsLC low high fStep).map
            (fun f => lagged_coherence_1freq x f sRate nCycles fStep)).length : ℝ)) := by
  constructor <;> simp [lagged_coherence, freqsLC]

/-- Counterexample for C5: for `f_range = (5, 4.5)` (low > high, an invalid
range) the call is not rejected: the code builds the frequency sequence `[5]`
and computes lagged coherence at 5 Hz, returning a spectrum. -/
theorem no_validation_cex :
    (9 / 2 : ℚ) < 5 ∧
    freqsLC 5 (9 / 2) 1 = [5] ∧
    lagged_coherence [(1 : ℝ)] (5, 9 / 2) 1 3 1 true =
      LCOutput.spectrum [lagged_coherence_1freq [(1 : ℝ)] 5 1 3 1] [5] := by
  have hfreqs : freqsLC 5 (9 / 2) 1 = [5] := by
    norm_num [freqsLC, arange, List.range_succ]
    rw [show ⌈(1 / 2 : ℚ)⌉ = 1 by rw [Int.ceil_eq_iff]; norm_num]
    norm_num [List.range_succ]
  refine ⟨by norm_num, hfreqs, ?_⟩
  simp only [lagged_coherence]
  rw [show arange 5 (9 / 2 + 1) 1 = [5] from hfreqs]
  simp

/-- Counterexample for C1: for the frequency range `(8, 12.5)` with step 1 the
code evaluates the frequency 13, which exceeds `high = 12.5`. -/
theorem freq_seq_exceeds_high_cex :
    (13 : ℚ) ∈ freqsLC 8 (25 / 2) 1 ∧ (25 / 2 : ℚ) < 13 := by
  have h : freqsLC 8 (25 / 2) 1 = [8, 9, 10, 11, 12, 13] := by
    norm_num [freqsLC, arange, List.range_succ]
    rw [show ⌈(11 / 2 : ℚ)⌉ = 6 by rw [Int.ceil_eq_iff]; norm_num]
    norm_num [show ((6 : ℤ).toNat = 6) from rfl, List.range_succ]
  rw [h]
  norm_num

lemma getLast?_map_range {β : Type} (g : ℕ → β) (n : ℕ) :
    ((List.range (n + 1)).map g).getLast? = some (g n) := by
  rw [List.range_succ, List.map_append]
  simp

/-- Claim C1 (amended): for `low ≤ high` and `step > 0` the evaluated frequency
sequence is the arithmetic sequence `low + k*step` for
`0 ≤ k ≤ ⌈(high-low)/step⌉`; every evaluated frequency is `< high + step`
(not `≤ high`), and when `high - low` is an integer multiple of `step` the
last evaluated frequency is exactly `high`.  (When `high - low` is not a
multiple of `step` the last element exceeds `high`, see the counterexample.) -/
theorem freq_seq_arange_semantics (low high step : ℚ) (h1 : low ≤ high) (h2 : 0 < step) :
    freqsLC low high step =
      (List.range (⌈(high - low) / step⌉.toNat + 1)).map (fun k : ℕ => low + (k : ℚ) * step) ∧
    (∀ q ∈ freqsLC low high step, q < high + step) ∧
    ((∃ k : ℤ, high - low = k * step) → (freqsLC low high step).getLast? = some high) := by
  have hstep : (step : ℚ) ≠ 0 := ne_of_gt h2
  have hA : 0 ≤ (high - low) / step := div_nonneg (by linarith) h2.le
  have hceilnn : 0 ≤ ⌈(high - low) / step⌉ := Int.ceil_nonneg hA
  have hcount : (high + step - low) / step = (high - low) / step + 1 := by
    field_simp
    ring
  have hceil : ⌈(high + step - low) / step⌉ = ⌈(high - low) / step⌉ + 1 := by
    rw [hcount, Int.ceil_add_one]
  have htoNat : ⌈(high + step - low) / step⌉.toNat = ⌈(high - low) / step⌉.toNat + 1 := by
    rw [hceil]
    omega
  have hfirst : freqsLC low high step =
      (List.range (⌈(high - low) / step⌉.toNat + 1)).map (fun k : ℕ => low + (k : ℚ) * step) := by
    rw [freqsLC, arange, htoNat]
  refine ⟨hfirst, ?_, ?_⟩
  · intro q hq
    rw [hfirst] at hq
    rcases List.mem_map.mp hq with ⟨k, hk, rfl⟩
    rw [List.mem_range] at hk
    have hkz : (k : ℤ) ≤ ⌈(high - low) / step⌉ := by omega
    have hlt : ((⌈(high - low) / step⌉ : ℤ) : ℚ) < (high - low) / step + 1 :=
      Int.ceil_lt_add_one _
    have hkq : (k : ℚ) < (high - low) / step + 1 :=
      lt_of_le_of_lt (by exact_mod_cast hkz) hlt
    have hmul : (k : ℚ) * step < ((high - low) / step + 1) * step :=
      mul_lt_mul_of_pos_right hkq h2
    have hdiv : (high - low) / step * step = high - low := div_mul_cancel₀ _ hstep
    have hexp : ((high - low) / step + 1) * step = (high - low) + step := by
      rw [add_mul, one_mul, hdiv]
    linarith
  · rintro ⟨k, hk⟩
    have hAk : (high - low) / step = (k : ℚ) := by
      rw [hk]
      field_simp
    have hceilk : ⌈(high - low) / step⌉ = k := by rw [hAk, Int.ceil_intCast]
    have hknn : 0 ≤ k := by
      rw [← hceilk]
      exact hceilnn
    rw [hfirst, hceilk, getLast?_map_range]
    have hcast : ((k.toNat : ℕ) : ℚ) = ((k : ℤ) : ℚ) := by
      exact_mod_cast congrArg (fun z : ℤ => (z : ℚ)) (Int.toNat_of_nonneg hknn)
    rw [hcast]
    congr 1
    linarith

/-- Witness for C1 (amended) at the spec's literal case `(8, 12, 1)`, which
evaluates exactly `[8, 9, 10, 11, 12]`. -/
theorem freq_seq_arange_semantics_witness :
    ((8 : ℚ) ≤ 12 ∧ (0 : ℚ) < 1 ∧
      (freqsLC 8 12 1 =
          (List.range (⌈((12 : ℚ) - 8) / 1⌉.toNat + 1)).map (fun k : ℕ => (8 : ℚ) + (k : ℚ) * 1) ∧
        (∀ q ∈ freqsLC 8 12 1, q < 12 + 1) ∧
        ((∃ k : ℤ, (12 : ℚ) - 8 = k * 1) → (freqsLC 8 12 1).getLast? = some 12))) ∧
    freqsLC 8 12 1 = [8, 9, 10, 11, 12] := by
  refine ⟨⟨by norm_num, by norm_num,
    freq_seq_arange_semantics 8 12 1 (by norm_num) (by norm_num)⟩, ?_⟩
  norm_num [freqsLC, arange, List.range_succ]
  norm_num [show ((5 : ℤ).toNat = 5) from rfl, List.range_succ]

lemma lcDenomSq_len_le_one (a : List ℂ) (h : a.length ≤ 1) : lcDenomSq a = 0 := by
  rw [lcDenomSq, List.dropLast_eq_take]
  have h0 : a.length - 1 = 0 := by omega
  rw [h0]
  simp

/-- Claim C2 (code bug witnessed): with `f_range = (1, 3)`, `s_rate = 10`,
`n_cycles = 3` and a 30-sample signal, the sweep evaluates `[1, 2, 3]`;
frequency 1 Hz needs a 30-sample window, so only one chunk exists there: its
numerator is an empty sum (0) and the radicand of the denominator is 0, so the
Python code computes `abs(0/0) = NaN` at 1 Hz while 2 Hz and 3 Hz are healthy,
and `np.mean` silently propagates that NaN into the scalar-mode result instead
of excluding the degenerate frequency or failing loudly. -/
theorem degenerate_freq_silent_nan :
    freqsLC 1 3 1 = [1, 2, 3] ∧
    (fourierCoefs (List.replicate 30 (1 : ℝ)) 1 10 3).length = 1 ∧
    lcDenomSq (fourierCoefs (List.replicate 30 (1 : ℝ)) 1 10 3) = 0 ∧
    lcNum (fourierCoefs (List.replicate 30 (1 : ℝ)) 1 10 3) = 0 ∧
    lagged_coherence (List.replicate 30 (1 : ℝ)) (1, 3) 10 3 1 false =
      LCOutput.scalar
        (((freqsLC 1 3 1).map
            (fun f => lagged_coherence_1freq (List.replicate 30 (1 : ℝ)) f 10 3 1)).sum
          / 3) := by
  have hfreqs : freqsLC 1 3 1 = [1, 2, 3] := by
    norm_num [freqsLC, arange, List.range_succ]
    norm_num [show ((3 : ℤ).toNat = 3) from rfl, List.range_succ]
  have hN : (nSamps 3 10 1).toNat = 30 := by
    norm_num [nSamps]
    rfl
  have hlen : (fourierCoefs (List.replicate 30 (1 : ℝ)) 1 10 3).length = 1 := by
    rw [fourierCoefs, List.length_map, nonoverlapping_chunks, List.length_map,
      List.length_range, hN]
    simp
  refine ⟨hfreqs, hlen, lcDenomSq_len_le_one _ (by rw [hlen]), ?_, ?_⟩
  · rw [lcNum, hlen]
    simp
  · simp only [lagged_coherence]
    rw [show arange 1 (3 + 1) 1 = [1, 2, 3] from hfreqs, hfreqs]
    norm_num

lemma lcDenomSq_eq_spec (a : List ℂ) :
    lcDenomSq a =
      (∑ i in Finset.range (a.length - 1), Complex.abs (a.getD i 0) ^ 2) *
        (∑ i in Finset.range (a.length - 1), Complex.abs (a.getD (i + 1) 0) ^ 2) := by
  rw [lcDenomSq, dropLast_map_sum, drop_one_map_sum]

lemma lagged_coherence_1freq_eq (x : List ℝ) (f sRate nCycles fStep : ℚ) :
    lagged_coherence_1freq x f sRate nCycles fStep =
      Complex.abs (specNumerator (fourierCoefs x f sRate nCycles)) /
        specDenominator (fourierCoefs x f sRate nCycles) := by
  rw [lagged_coherence_1freq, lcNum_eq_specNumerator, specDenominator, ← lcDenomSq_eq_spec,
    map_div₀, Complex.abs_ofReal, abs_of_nonneg (Real.sqrt_nonneg _)]

lemma abs_lcNum_le_sqrt (a : List ℂ) :
    Complex.abs (lcNum a) ≤ Real.sqrt (lcDenomSq a) := by
  rw [lcNum_eq_specNumerator, specNumerator, lcDenomSq_eq_spec]
  have h1 : Complex.abs (∑ i in Finset.range (a.length - 1),
        a.getD i 0 * (starRingEnd ℂ) (a.getD (i + 1) 0)) ≤
      ∑ i in Finset.range (a.length - 1),
        Complex.abs (a.getD i 0) * Complex.abs (a.getD (i + 1) 0) := by
    refine le_trans (AbsoluteValue.sum_le _ _ _) ?_
    refine Finset.sum_le_sum (fun i _ => ?_)
    rw [map_mul, Complex.abs_conj]
  have h2 : (∑ i in Finset.range (a.length - 1),
        Complex.abs (a.getD i 0) * Complex.abs (a.getD (i + 1) 0)) ^ 2 ≤
      (∑ i in Finset.range (a.length - 1), Complex.abs (a.getD i 0) ^ 2) *
        (∑ i in Finset.range (a.length - 1), Complex.abs (a.getD (i + 1) 0) ^ 2) :=
    Finset.sum_mul_sq_le_sq_mul_sq _ _ _
  have h3 : 0 ≤ ∑ i in Finset.range (a.length - 1),
      Complex.abs (a.getD i 0) * Complex.abs (a.getD (i + 1) 0) :=
    Finset.sum_nonneg (fun i _ => mul_nonneg (Complex.abs.nonneg _) (Complex.abs.nonneg _))
  have h5 : 0 ≤ (∑ i in Finset.range (a.length - 1), Complex.abs (a.getD i 0) ^ 2) *
      (∑ i in Finset.range (a.length - 1), Complex.abs (a.getD (i + 1) 0) ^ 2) :=
    mul_nonneg (Finset.sum_nonneg (fun i _ => sq_nonneg _))
      (Finset.sum_nonneg (fun i _ => sq_nonneg _))
  have h4 : (∑ i in Finset.range (a.length - 1),
        Complex.abs (a.getD i 0) * Complex.abs (a.getD (i + 1) 0)) ≤
      Real.sqrt ((∑ i in Finset.range (a.length - 1), Complex.abs (a.getD i 0) ^ 2) *
        (∑ i in Finset.range (a.length - 1), Complex.abs (a.getD (i + 1) 0) ^ 2)) :=
    (Real.le_sqrt h3 h5).mpr h2
  exact le_trans h1 h4

lemma lagged_coherence_1freq_mem_Icc (x : List ℝ) (f sRate nCycles fStep : ℚ)
    (hd : 0 < lcDenomSq (fourierCoefs x f sRate nCycles)) :
    0 ≤ lagged_coherence_1freq x f sRate nCycles fStep ∧
      lagged_coherence_1freq x f sRate nCycles fStep ≤ 1 := by
  rw [lagged_coherence_1freq, map_div₀, Complex.abs_ofReal,
    abs_of_nonneg (Real.sqrt_nonneg _)]
  constructor
  · exact div_nonneg (Complex.abs.nonneg _) (Real.sqrt_nonneg _)
  · rw [div_le_one (Real.sqrt_pos.mpr hd)]
    exact abs_lcNum_le_sqrt _

/-- Claim C3: for every valid input (each evaluated frequency has a nonzero —
hence positive — denominator radicand), every per-frequency lagged coherence
value returned in spectrum mode lies in the closed interval `[0, 1]`. -/
theorem lagged_coherence_bounded (x : List ℝ) (low high sRate nCycles fStep : ℚ)
    (hd : ∀ f ∈ freqsLC low high fStep, 0 < lcDenomSq (fourierCoefs x f sRate nCycles)) :
    ∀ lcs fs,
      lagged_coherence x (low, high) sRate nCycles fStep true = LCOutput.spectrum lcs fs →
      ∀ v ∈ lcs, 0 ≤ v ∧ v ≤ 1 := by
  intro lcs fs hrun v hv
  simp only [lagged_coherence] at hrun
  injection hrun with h1 h2
  subst h1 h2
  rcases List.mem_map.mp hv with ⟨f, hf, rfl⟩
  exact lagged_coherence_1freq_mem_Icc x f sRate nCycles fStep (hd f hf)

lemma getD_map_range {β : Type} (g : ℕ → β) (d : β) (N k : ℕ) (h : k < N) :
    ((List.range N).map g).getD k d = g k := by
  have hlen : k < ((List.range N).map g).length := by simpa using h
  rw [List.getD_eq_getElem _ d hlen]
  simp

/-- Claim C8: the estimator selects the Fourier coefficient at a bin of the
standard DFT grid for `N = ⌈n_cycles·s_rate/f⌉` samples whose frequency
minimizes the distance to `f`; the selected index is a function of `N`, the
sampling rate and `f` alone (computed once, before the loop over chunks), so
one deterministic rule picks the same bin for every chunk regardless of chunk
contents. -/
theorem fourier_bin_selection (x : List ℝ) (f sRate nCycles : ℚ)
    (hN : 0 < (nSamps nCycles sRate f).toNat) :
    fourierFIdx (nSamps nCycles sRate f).toNat sRate f < (nSamps nCycles sRate f).toNat ∧
    (∀ k < (nSamps nCycles sRate f).toNat,
      |fftfreq (nSamps nCycles sRate f).toNat sRate
          (fourierFIdx (nSamps nCycles sRate f).toNat sRate f) - f| ≤
        |fftfreq (nSamps nCycles sRate f).toNat sRate k - f|) ∧
    fourierCoefs x f sRate nCycles =
      (nonoverlapping_chunks x (nSamps nCycles sRate f).toNat).map
        (fun c => dftCoef
          (List.zipWith (· * ·) c (hannWindow (nSamps nCycles sRate f).toNat))
          (fourierFIdx (nSamps nCycles sRate f).toNat sRate f)) := by
  have hlne : ((List.range (nSamps nCycles sRate f).toNat).map
      (fun k => |fftfreq (nSamps nCycles sRate f).toNat sRate k - f|)) ≠ [] := by
    apply List.length_pos.mp
    simpa using hN
  have hlt : fourierFIdx (nSamps nCycles sRate f).toNat sRate f <
      (nSamps nCycles sRate f).toNat := by
    have := argminIdx_lt_length _ hlne
    simpa [fourierFIdx] using this
  refine ⟨hlt, ?_, rfl⟩
  intro k hk
  have hmin := argminIdx_min _ hlne k (by simpa using hk)
  rw [getD_map_range _ _ _ _ (by simpa [fourierFIdx] using hlt),
    getD_map_range _ _ _ _ hk] at hmin
  exact hmin

/-- Claim C4: for inputs with `f > 0`, `s_rate > 0` and at least two chunks,
the single-frequency estimator uses the window length
`N = ⌈n_cycles·s_rate/f⌉` (chunking, tapering and bin selection are all done
at that length) and returns `|numerator| / denominator`, where the numerator
is the sum over the `C-1` adjacent chunk pairs of each tapered Fourier
coefficient times the conjugate of the next one, and the denominator is
`sqrt((Σ_{i≤C-2} |a_i|²)·(Σ_{1≤i≤C-1} |a_i|²))`. -/
theorem lagged_coherence_1freq_formula (x : List ℝ) (f sRate nCycles fStep : ℚ)
    (_hf : 0 < f) (_hs : 0 < sRate) (_hC : 2 ≤ (fourierCoefs x f sRate nCycles).length) :
    lagged_coherence_1freq x f sRate nCycles fStep =
      Complex.abs (∑ i in Finset.range ((fourierCoefs x f sRate nCycles).length - 1),
          (fourierCoefs x f sRate nCycles).getD i 0 *
            (starRingEnd ℂ) ((fourierCoefs x f sRate nCycles).getD (i + 1) 0)) /
        Real.sqrt
          ((∑ i in Finset.range ((fourierCoefs x f sRate nCycles).length - 1),
              Complex.abs ((fourierCoefs x f sRate nCycles).getD i 0) ^ 2) *
            (∑ i in Finset.range ((fourierCoefs x f sRate nCycles).length - 1),
              Complex.abs ((fourierCoefs x f sRate nCycles).getD (i + 1) 0) ^ 2)) ∧
    fourierCoefs x f sRate nCycles =
      (nonoverlapping_chunks x (Int.toNat ⌈nCycles * sRate / f⌉)).map
        (fun c => dftCoef
          (List.zipWith (· * ·) c (hannWindow (Int.toNat ⌈nCycles * sRate / f⌉)))
          (fourierFIdx (Int.toNat ⌈nCycles * sRate / f⌉) sRate f)) := by
  constructor
  · rw [lagged_coherence_1freq_eq, specNumerator, specDenominator]
  · rfl

/-! ### Concrete evaluation of the pipeline on the signal [0,1,0,0,1,0]
at `f = 1`, `s_rate = 3`, `n_cycles = 1` (window length 3, two chunks). -/

lemma nSamps_131 : (nSamps 1 3 1).toNat = 3 := by
  norm_num [nSamps]
  rfl

lemma fourierFIdx_331 : fourierFIdx 3 3 1 = 1 := by
  norm_num [fourierFIdx, argminIdx, fftfreq, List.range_succ, List.findIdx_cons]

lemma hannWindow_three : hannWindow 3 = [0, 1, 0] := by
  rw [hannWindow, if_neg (by norm_num)]
  norm_num [List.range_succ, Real.cos_zero]

lemma chunks_sig : nonoverlapping_chunks ([0, 1, 0, 0, 1, 0] : List ℝ) 3 =
    [[0, 1, 0], [0, 1, 0]] := by
  rw [nonoverlapping_chunks]
  norm_num [List.range_succ]

lemma dftCoef_sig : dftCoef [0, 1, 0] 1 =
    Complex.exp ((-(2 * Real.pi * 1 * 1 / 3) : ℝ) * Complex.I) := by
  rw [dftCoef]
  norm_num [Finset.sum_range_succ]

lemma fourierCoefs_sig : fourierCoefs [0, 1, 0, 0, 1, 0] 1 3 1 =
    [Complex.exp ((-(2 * Real.pi * 1 * 1 / 3) : ℝ) * Complex.I),
      Complex.exp ((-(2 * Real.pi * 1 * 1 / 3) : ℝ) * Complex.I)] := by
  rw [fourierCoefs, nSamps_131, fourierFIdx_331, hannWindow_three, chunks_sig]
  simp only [List.map_cons, List.map_nil]
  norm_num [List.zipWith, dftCoef_sig]

lemma lcDenomSq_pair (z w : ℂ) :
    lcDenomSq [z, w] = Complex.abs z ^ 2 * Complex.abs w ^ 2 := by
  rw [lcDenomSq]
  simp

lemma denomSq_sig : lcDenomSq (fourierCoefs [0, 1, 0, 0, 1, 0] 1 3 1) = 1 := by
  rw [fourierCoefs_sig, lcDenomSq_pair, Complex.abs_exp_ofReal_mul_I]
  norm_num

lemma freqs_111 : freqsLC 1 1 1 = [1] := by
  norm_num [freqsLC, arange, List.range_succ]

/-- Witness for C3: on the signal `[0,1,0,0,1,0]` with `f_range = (1,1)`,
`s_rate = 3`, `n_cycles = 1`, the single evaluated frequency has denominator
radicand 1 > 0, and every spectrum value lies in `[0, 1]`. -/
theorem lagged_coherence_bounded_witness :
    (∀ f ∈ freqsLC 1 1 1, 0 < lcDenomSq (fourierCoefs [0, 1, 0, 0, 1, 0] f 3 1)) ∧
    (∀ lcs fs,
      lagged_coherence [0, 1, 0, 0, 1, 0] (1, 1) 3 1 1 true = LCOutput.spectrum lcs fs →
      ∀ v ∈ lcs, 0 ≤ v ∧ v ≤ 1) := by
  have hd : ∀ f ∈ freqsLC 1 1 1, 0 < lcDenomSq (fourierCoefs [0, 1, 0, 0, 1, 0] f 3 1) := by
    intro f hf
    rw [freqs_111] at hf
    obtain rfl := List.mem_singleton.mp hf
    rw [denomSq_sig]
    norm_num
  exact ⟨hd, lagged_coherence_bounded [0, 1, 0, 0, 1, 0] 1 1 3 1 1 hd⟩

/-- Witness for C4 on the signal `[0,1,0,0,1,0]` with `f = 1`, `s_rate = 3`,
`n_cycles = 1` (two chunks). -/
theorem lagged_coherence_1freq_formula_witness :
    ((0 : ℚ) < 1 ∧ (0 : ℚ) < 3 ∧ 2 ≤ (fourierCoefs [0, 1, 0, 0, 1, 0] 1 3 1).length) ∧
    (lagged_coherence_1freq [0, 1, 0, 0, 1, 0] 1 3 1 1 =
        Complex.abs (∑ i in Finset.range ((fourierCoefs [0, 1, 0, 0, 1, 0] 1 3 1).length - 1),
            (fourierCoefs [0, 1, 0, 0, 1, 0] 1 3 1).getD i 0 *
              (starRingEnd ℂ) ((fourierCoefs [0, 1, 0, 0, 1, 0] 1 3 1).getD (i + 1) 0)) /
          Real.sqrt
            ((∑ i in Finset.range ((fourierCoefs [0, 1, 0, 0, 1, 0] 1 3 1).length - 1),
                Complex.abs ((fourierCoefs [0, 1, 0, 0, 1, 0] 1 3 1).getD i 0) ^ 2) *
              (∑ i in Finset.range ((fourierCoefs [0, 1, 0, 0, 1, 0] 1 3 1).length - 1),
                Complex.abs ((fourierCoefs [0, 1, 0, 0, 1, 0] 1 3 1).getD (i + 1) 0) ^ 2)) ∧
      fourierCoefs [0, 1, 0, 0, 1, 0] 1 3 1 =
        (nonoverlapping_chunks [0, 1, 0, 0, 1, 0] (Int.toNat ⌈(1 : ℚ) * 3 / 1⌉)).map
          (fun c => dftCoef
            (List.zipWith (· * ·) c (hannWindow (Int.toNat ⌈(1 : ℚ) * 3 / 1⌉)))
            (fourierFIdx (Int.toNat ⌈(1 : ℚ) * 3 / 1⌉) 3 1))) := by
  have hlen : 2 ≤ (fourierCoefs [0, 1, 0, 0, 1, 0] 1 3 1).length := by
    rw [fourierCoefs_sig]
    norm_num
  exact ⟨⟨by norm_num, by norm_num, hlen⟩,
    lagged_coherence_1freq_formula [0, 1, 0, 0, 1, 0] 1 3 1 1 (by norm_num) (by norm_num) hlen⟩

/-- Witness for C8 with `n_cycles = 1`, `s_rate = 3`, `f = 1` (window length
3, DFT grid `[0, 1, -1]`; the selected bin is the exact-match bin 1). -/
theorem fourier_bin_selection_witness :
    0 < (nSamps 1 3 1).toNat ∧
    (fourierFIdx (nSamps 1 3 1).toNat 3 1 < (nSamps 1 3 1).toNat ∧
      (∀ k < (nSamps 1 3 1).toNat,
        |fftfreq (nSamps 1 3 1).toNat 3 (fourierFIdx (nSamps 1 3 1).toNat 3 1) - 1| ≤
          |fftfreq (nSamps 1 3 1).toNat 3 k - 1|) ∧
      fourierCoefs [(1 : ℝ)] 1 3 1 =
        (nonoverlapping_chunks [(1 : ℝ)] (nSamps 1 3 1).toNat).map
          (fun c => dftCoef
            (List.zipWith (· * ·) c (hannWindow (nSamps 1 3 1).toNat))
            (fourierFIdx (nSamps 1 3 1).toNat 3 1))) := by
  have hN : 0 < (nSamps 1 3 1).toNat := by
    rw [nSamps_131]
    norm_num
  exact ⟨hN, fourier_bin_selection [(1 : ℝ)] 1 3 1 hN⟩

end NeuroDSP
